import Mathlib

/-!
Verification of the indigo search / backfill engine against its
specification. The Go sources are shallowly embedded: Go maps become
association lists with replace-or-append update, fallible calls return
`Except`, and the wall clock and the remote OpenSearch service are passed
in explicitly as data.
-/

namespace Indigo

/-! ## Association lists: the embedding of Go maps and of the document index -/

/-- Lookup in an association list: the value stored at the first matching key,
the embedding of a Go map read `m[k]`. -/
def listLookup {κ α : Type} [DecidableEq κ] : List (κ × α) → κ → Option α
  | [], _ => none
  | (k', v) :: rest, k => if k' = k then some v else listLookup rest k

/-- Replace-or-append update, the embedding of a Go map write `m[k] = v`. -/
def listUpsert {κ α : Type} [DecidableEq κ] : List (κ × α) → κ → α → List (κ × α)
  | [], k, v => [(k, v)]
  | (k', v') :: rest, k, v =>
    if k' = k then (k, v) :: rest else (k', v') :: listUpsert rest k v

/-- Key removal, the embedding of a Go map `delete(m, k)` or an index
document deletion. -/
def listRemove {κ α : Type} [DecidableEq κ] : List (κ × α) → κ → List (κ × α)
  | [], _ => []
  | (k', v) :: rest, k =>
    if k' = k then listRemove rest k else (k', v) :: listRemove rest k

theorem listLookup_listUpsert_self {κ α : Type} [DecidableEq κ]
    (l : List (κ × α)) (k : κ) (v : α) :
    listLookup (listUpsert l k v) k = some v := by
  induction l with
  | nil => simp [listUpsert, listLookup]
  | cons p rest ih =>
    obtain ⟨k', v'⟩ := p
    by_cases h : k' = k <;> simp [listUpsert, listLookup, h, ih]

theorem listLookup_listUpsert_ne {κ α : Type} [DecidableEq κ]
    (l : List (κ × α)) (k k' : κ) (v : α) (h : k' ≠ k) :
    listLookup (listUpsert l k v) k' = listLookup l k' := by
  induction l with
  | nil => simp [listUpsert, listLookup, Ne.symm h]
  | cons p rest ih =>
    obtain ⟨k0, v0⟩ := p
    by_cases h0 : k0 = k
    · subst h0
      simp [listUpsert, listLookup, Ne.symm h]
    · simp [listUpsert, listLookup, h0, ih]

theorem listUpsert_lookup_eq_self {κ α : Type} [DecidableEq κ]
    (l : List (κ × α)) (k : κ) (v : α) (h : listLookup l k = some v) :
    listUpsert l k v = l := by
  induction l with
  | nil => simp [listLookup] at h
  | cons p rest ih =>
    obtain ⟨k', v'⟩ := p
    by_cases hk : k' = k
    · subst hk
      simp [listLookup] at h
      simp [listUpsert, h]
    · simp [listLookup, hk] at h
      simp [listUpsert, hk, ih h]

theorem listUpsert_idem {κ α : Type} [DecidableEq κ]
    (l : List (κ × α)) (k : κ) (v : α) :
    listUpsert (listUpsert l k v) k v = listUpsert l k v :=
  listUpsert_lookup_eq_self _ _ _ (listLookup_listUpsert_self l k v)

theorem listRemove_absent {κ α : Type} [DecidableEq κ]
    (l : List (κ × α)) (k : κ) (h : listLookup l k = none) :
    listRemove l k = l := by
  induction l with
  | nil => simp [listRemove]
  | cons p rest ih =>
    obtain ⟨k', v'⟩ := p
    by_cases hk : k' = k
    · simp [listLookup, hk] at h
    · simp [listLookup, hk] at h
      simp [listRemove, hk, ih h]

/-! ## Machine integers

Go `int` is a 64-bit signed integer; where an arithmetic result could
leave the representable range we reduce it explicitly. -/

/-- Two's-complement wraparound of a 64-bit signed integer. -/
def wrap64 (n : Int) : Int := (n + 2 ^ 63) % 2 ^ 64 - 2 ^ 63

theorem wrap64_eq_self (n : Int) (hlo : -(2 ^ 63) ≤ n) (hhi : n < 2 ^ 63) :
    wrap64 n = n := by
  have h : (n + 2 ^ 63) % 2 ^ 64 = n + 2 ^ 63 :=
    Int.emod_eq_of_lt (by omega) (by omega)
  rw [wrap64, h]
  omega

/-! ## The counting store (`countstore.MemCountStore`) -/

/-- Modelled from the spec: the period constants `PeriodTotal`, `PeriodDay`
and `PeriodHour` are referenced by the sampled countstore source but
declared elsewhere in the package; only their pairwise distinctness is
used here. -/
def PeriodTotal : String := "total"

/-- Modelled from the spec: see `PeriodTotal`. -/
def PeriodDay : String := "day"

/-- Modelled from the spec: see `PeriodTotal`. -/
def PeriodHour : String := "hour"

/-- The wall clock as `PeriodBucket` observes it: the formatted UTC date
(`time.DateOnly`) and the hour prefix of the RFC 3339 timestamp. -/
structure Clock where
  dayStr : String
  hourStr : String
deriving DecidableEq

/-- `countstore.PeriodBucket`: the bucket key for a counter, slash-joining
the name, the value and, for the day and hour periods, the formatted
current time. -/
def PeriodBucket (c : Clock) (name val period : String) : String :=
  if period = PeriodTotal then name ++ "/" ++ val
  else if period = PeriodDay then name ++ "/" ++ val ++ "/" ++ c.dayStr
  else if period = PeriodHour then name ++ "/" ++ val ++ "/" ++ c.hourStr
  else name ++ "/" ++ val

/-- `countstore.MemCountStore`: plain counters and distinct-value sets,
both keyed by bucket string. A Go `map[string]bool` used as a set becomes
a duplicate-free list of its member strings. -/
structure MemCountStore where
  counts : List (String × Int)
  distinctCounts : List (String × List String)
deriving DecidableEq

/-- `countstore.NewMemCountStore`. -/
def NewMemCountStore : MemCountStore := ⟨[], []⟩

/-- `MemCountStore.GetCount`: a missing bucket reads as 0 with a nil
error. -/
def GetCount (c : Clock) (s : MemCountStore) (name val period : String) :
    Except String Int :=
  match listLookup s.counts (PeriodBucket c name val period) with
  | none => .ok 0
  | some v => .ok v

/-- `MemCountStore.Increment`: bumps the counter in every period bucket. -/
def Increment (c : Clock) (s : MemCountStore) (name val : String) :
    MemCountStore :=
  [PeriodTotal, PeriodDay, PeriodHour].foldl
    (fun st p =>
      let k := PeriodBucket c name val p
      let v := (listLookup st.counts k).getD 0
      { st with counts := listUpsert st.counts k (wrap64 (v + 1)) })
    s

/-- `MemCountStore.GetCountDistinct`: the size of the distinct-value set,
0 with a nil error when the bucket is missing. -/
def GetCountDistinct (c : Clock) (s : MemCountStore) (name bucket period : String) :
    Except String Int :=
  match listLookup s.distinctCounts (PeriodBucket c name bucket period) with
  | none => .ok 0
  | some m => .ok (m.length : Int)

/-- One period step of `MemCountStore.IncrementDistinct`: record `val` as a
member of the set at bucket key `k` (`m[val] = true` on a map-as-set). -/
def distinctStep (st : MemCountStore) (k val : String) : MemCountStore :=
  let m := (listLookup st.distinctCounts k).getD []
  let m' := if val ∈ m then m else m ++ [val]
  { st with distinctCounts := listUpsert st.distinctCounts k m' }

/-- `MemCountStore.IncrementDistinct`: set membership in every period
bucket. -/
def IncrementDistinct (c : Clock) (s : MemCountStore) (name bucket val : String) :
    MemCountStore :=
  [PeriodTotal, PeriodDay, PeriodHour].foldl
    (fun st p => distinctStep st (PeriodBucket c name bucket p) val)
    s

/-- Membership of `val` in the distinct-value set stored at bucket `k`. -/
def memAt (st : MemCountStore) (k val : String) : Prop :=
  val ∈ (listLookup st.distinctCounts k).getD []

theorem memAt_distinctStep_self (st : MemCountStore) (k val : String) :
    memAt (distinctStep st k val) k val := by
  unfold memAt distinctStep
  simp only [listLookup_listUpsert_self, Option.getD_some]
  by_cases h : val ∈ (listLookup st.distinctCounts k).getD [] <;> simp [h]

theorem memAt_distinctStep (st : MemCountStore) (k k' val : String)
    (h : memAt st k' val) : memAt (distinctStep st k val) k' val := by
  unfold memAt distinctStep at *
  by_cases hk : k' = k
  · subst hk
    simp only [listLookup_listUpsert_self, Option.getD_some]
    by_cases h2 : val ∈ (listLookup st.distinctCounts k').getD [] <;> simp [h2]
  · simpa [listLookup_listUpsert_ne _ _ _ _ hk] using h

theorem distinctStep_mem_eq (st : MemCountStore) (k val : String)
    (h : memAt st k val) : distinctStep st k val = st := by
  unfold memAt at h
  unfold distinctStep
  cases hl : listLookup st.distinctCounts k with
  | none => rw [hl] at h; simp at h
  | some m =>
    rw [hl] at h
    simp only [Option.getD_some] at h
    simp [hl, h, listUpsert_lookup_eq_self _ _ _ hl]

theorem IncrementDistinct_as_steps (c : Clock) (s : MemCountStore)
    (name bucket val : String) :
    IncrementDistinct c s name bucket val =
      distinctStep
        (distinctStep (distinctStep s (PeriodBucket c name bucket PeriodTotal) val)
          (PeriodBucket c name bucket PeriodDay) val)
        (PeriodBucket c name bucket PeriodHour) val := by
  simp [IncrementDistinct, List.foldl]

/-- C9: `IncrementDistinct` is idempotent per value: a second identical call
leaves the store unchanged, so `GetCountDistinct` agrees for every period,
because distinct values are recorded as set membership, not a tally. -/
theorem IncrementDistinct_idempotent (c : Clock) (s : MemCountStore)
    (name bucket val : String) :
    IncrementDistinct c (IncrementDistinct c s name bucket val) name bucket val =
      IncrementDistinct c s name bucket val ∧
    ∀ period,
      GetCountDistinct c
          (IncrementDistinct c (IncrementDistinct c s name bucket val) name bucket val)
          name bucket period =
        GetCountDistinct c (IncrementDistinct c s name bucket val) name bucket period := by
  have hstate :
      IncrementDistinct c (IncrementDistinct c s name bucket val) name bucket val =
        IncrementDistinct c s name bucket val := by
    rw [IncrementDistinct_as_steps c (IncrementDistinct c s name bucket val),
      IncrementDistinct_as_steps c s]
    have m1 : memAt
        (distinctStep
          (distinctStep (distinctStep s (PeriodBucket c name bucket PeriodTotal) val)
            (PeriodBucket c name bucket PeriodDay) val)
          (PeriodBucket c name bucket PeriodHour) val)
        (PeriodBucket c name bucket PeriodTotal) val :=
      memAt_distinctStep _ _ _ _ (memAt_distinctStep _ _ _ _
        (memAt_distinctStep_self _ _ _))
    have m2 : memAt
        (distinctStep
          (distinctStep (distinctStep s (PeriodBucket c name bucket PeriodTotal) val)
            (PeriodBucket c name bucket PeriodDay) val)
          (PeriodBucket c name bucket PeriodHour) val)
        (PeriodBucket c name bucket PeriodDay) val :=
      memAt_distinctStep _ _ _ _ (memAt_distinctStep_self _ _ _)
    have m3 : memAt
        (distinctStep
          (distinctStep (distinctStep s (PeriodBucket c name bucket PeriodTotal) val)
            (PeriodBucket c name bucket PeriodDay) val)
          (PeriodBucket c name bucket PeriodHour) val)
        (PeriodBucket c name bucket PeriodHour) val :=
      memAt_distinctStep_self _ _ _
    rw [distinctStep_mem_eq _ _ _ m1, distinctStep_mem_eq _ _ _ m2,
      distinctStep_mem_eq _ _ _ m3]
  exact ⟨hstate, fun period => by rw [hstate]⟩

/-- All counters touched by a sequence of `Increment` calls, starting from a
fresh store. -/
def applyIncrements (c : Clock) (calls : List (String × String)) : MemCountStore :=
  calls.foldl (fun st nv => Increment c st nv.1 nv.2) NewMemCountStore

theorem Increment_lookup_untouched (c : Clock) (st : MemCountStore)
    (n v qk : String)
    (h : ∀ p ∈ [PeriodTotal, PeriodDay, PeriodHour], PeriodBucket c n v p ≠ qk) :
    listLookup (Increment c st n v).counts qk = listLookup st.counts qk := by
  simp only [Increment, List.foldl]
  rw [listLookup_listUpsert_ne _ _ _ _ (Ne.symm (h PeriodHour (by simp))),
    listLookup_listUpsert_ne _ _ _ _ (Ne.symm (h PeriodDay (by simp))),
    listLookup_listUpsert_ne _ _ _ _ (Ne.symm (h PeriodTotal (by simp)))]

theorem foldl_Increment_lookup (c : Clock) (calls : List (String × String))
    (st : MemCountStore) (qk : String)
    (h : ∀ nv ∈ calls, ∀ p ∈ [PeriodTotal, PeriodDay, PeriodHour],
        PeriodBucket c nv.1 nv.2 p ≠ qk) :
    listLookup ((calls.foldl (fun st nv => Increment c st nv.1 nv.2) st).counts) qk =
      listLookup st.counts qk := by
  induction calls generalizing st with
  | nil => rfl
  | cons nv rest ih =>
    simp only [List.foldl_cons]
    rw [ih _ (fun x hx => h x (by simp [hx])),
      Increment_lookup_untouched c st nv.1 nv.2 qk (h nv (by simp))]

/-- C10 (amended): `GetCount` never reports a lookup failure, and for every
query whose derived bucket key no `Increment` call has touched, it returns
the count 0 with a nil error. (Distinct (name, val) pairs can share a bucket
key when the strings contain a slash, so the guarantee is per bucket key,
not per (name, val) pair.) -/
theorem GetCount_missing_is_zero (c : Clock) (calls : List (String × String))
    (name val period : String)
    (h : ∀ nv ∈ calls, ∀ p ∈ [PeriodTotal, PeriodDay, PeriodHour],
        PeriodBucket c nv.1 nv.2 p ≠ PeriodBucket c name val period) :
    (∀ s : MemCountStore, ∃ n : Int, GetCount c s name val period = .ok n) ∧
    GetCount c (applyIncrements c calls) name val period = .ok 0 := by
  refine ⟨fun s => ?_, ?_⟩
  · unfold GetCount
    cases listLookup s.counts (PeriodBucket c name val period) <;> exact ⟨_, rfl⟩
  · unfold GetCount applyIncrements
    rw [foldl_Increment_lookup c calls NewMemCountStore _ h]
    rfl

/-- C10 witness: a concrete query whose bucket no increment touched yields
`ok 0`, through `GetCount_missing_is_zero`. -/
theorem GetCount_missing_is_zero_witness :
    GetCount ⟨"2024-01-02", "2024-01-02T03"⟩
        (applyIncrements ⟨"2024-01-02", "2024-01-02T03"⟩ [("likes", "did:a")])
        "posts" "did:b" PeriodTotal = .ok 0 :=
  (GetCount_missing_is_zero ⟨"2024-01-02", "2024-01-02T03"⟩ [("likes", "did:a")]
      "posts" "did:b" PeriodTotal (by decide)).2

/-- C10 counterexample: `Increment` was called only with name `a` and value
`b/c`, never with the pair (`a/b`, `c`), yet `GetCount` for (`a/b`, `c`,
total) returns 1, not 0: both pairs derive the same bucket key `a/b/c`. -/
theorem GetCount_collision_not_zero :
    GetCount ⟨"2024-01-02", "2024-01-02T03"⟩
        (Increment ⟨"2024-01-02", "2024-01-02T03"⟩ NewMemCountStore "a" "b/c")
        "a/b" "c" PeriodTotal = .ok 1 ∧
    ("a", "b/c") ≠ (("a/b" : String), ("c" : String)) := by
  exact ⟨by rfl, by decide⟩

/-! ## The record applier (C2) -/

/-- Modelled from the spec: the record-apply handlers wired in `NewServer`
(`handleCreateOrUpdate` and `handleDelete`) are not among the sampled source
files. Per the spec, the index is an external document store whose identity
is (repoID, collection, rkey); an upsert is insert-or-replace and a delete
removes the document, succeeding as a no-op when it is absent. -/
structure DocId where
  repo : String
  collection : String
  rkey : String
deriving DecidableEq

/-- The external search index as the applier observes it: a document store
keyed by `DocId`, holding each document body. -/
abbrev SearchIndex := List (DocId × String)

/-- Modelled from the spec: `ApplyUpsert(repoID, collection, rkey, payload)`
inserts or replaces the identified document. -/
def ApplyUpsert (idx : SearchIndex) (repo coll rkey payload : String) :
    Except String SearchIndex :=
  .ok (listUpsert idx ⟨repo, coll, rkey⟩ payload)

/-- Modelled from the spec: `ApplyDelete(repoID, collection, rkey)` removes
the identified document. -/
def ApplyDelete (idx : SearchIndex) (repo coll rkey : String) :
    Except String SearchIndex :=
  .ok (listRemove idx ⟨repo, coll, rkey⟩)

/-- C2: applying the same upsert twice yields exactly the index state of
applying it once, and a delete of a record absent from the index succeeds
returning the index unchanged, not an error. -/
theorem applier_idempotent (idx : SearchIndex) (repo coll rkey payload : String) :
    (∀ idx', ApplyUpsert idx repo coll rkey payload = .ok idx' →
        ApplyUpsert idx' repo coll rkey payload = .ok idx') ∧
    (listLookup idx ⟨repo, coll, rkey⟩ = none →
        ApplyDelete idx repo coll rkey = .ok idx) := by
  constructor
  · intro idx' h
    simp only [ApplyUpsert, Except.ok.injEq] at h
    subst h
    simp [ApplyUpsert, listUpsert_idem]
  · intro h
    simp [ApplyDelete, listRemove_absent _ _ h]

/-! ## The backfill job store (C3, C6)

Modelled from the spec: the job store implementation (`backfill.Gormstore`)
is not among the sampled source files, only its construction in
`NewServer`. Per the spec, a job is keyed by repository identifier with
state enqueued, in-progress, complete or failed, a retry count and a
claimant; `ClaimNext` atomically selects one enqueued job, marks it
in-progress and records the claimant, and the claim operation is the sole,
linearizable mutual-exclusion point, so any concurrent execution of claims
is equivalent to some sequence of atomic claim steps. -/

/-- The lifecycle states of a `BackfillJob`. -/
inductive JobState
  | enqueued
  | inProgress
  | complete
  | failed
deriving DecidableEq

/-- Modelled from the spec: a `BackfillJob` record of the job store. -/
structure Job where
  repo : String
  state : JobState
  claimant : Option Nat
  retries : Nat
deriving DecidableEq

/-- Modelled from the spec: `ClaimNext(workerID)` as one atomic step: the
first enqueued job is moved to in-progress with the claimant recorded and
returned; with no enqueued job, none is returned and the store is
unchanged. -/
def claimNext : List Job → Nat → Option Job × List Job
  | [], _ => (none, [])
  | j :: rest, w =>
    if j.state = .enqueued then
      (some { j with state := .inProgress, claimant := some w },
        { j with state := .inProgress, claimant := some w } :: rest)
    else
      ((claimNext rest w).1, j :: (claimNext rest w).2)

/-- A sequence of atomic claim attempts by the given workers: the jobs
returned, in order, and the final store. Any interleaving of concurrent
`ClaimNext` calls linearizes to such a sequence. -/
def claimAll : List Job → List Nat → List Job × List Job
  | s, [] => ([], s)
  | s, w :: ws =>
    ((claimNext s w).1.toList ++ (claimAll (claimNext s w).2 ws).1,
      (claimAll (claimNext s w).2 ws).2)

/-- Some job for repository `r` is in state `st`. -/
def repoInState (s : List Job) (r : String) (st : JobState) : Prop :=
  ∃ j ∈ s, j.repo = r ∧ j.state = st

theorem claimNext_map_repo (s : List Job) (w : Nat) :
    ((claimNext s w).2).map Job.repo = s.map Job.repo := by
  induction s with
  | nil => rfl
  | cons j rest ih =>
    by_cases h : j.state = .enqueued <;> simp [claimNext, h, ih]

theorem claimNext_mem_of_ne_enqueued (s : List Job) (w : Nat) (j : Job)
    (hj : j ∈ s) (hst : j.state ≠ .enqueued) : j ∈ (claimNext s w).2 := by
  induction s with
  | nil => cases hj
  | cons j0 rest ih =>
    rcases List.mem_cons.mp hj with rfl | hmem
    · by_cases h : j.state = .enqueued
      · exact absurd h hst
      · simp [claimNext, h]
    · by_cases h : j0.state = .enqueued <;> simp [claimNext, h]
      · exact Or.inr hmem
      · exact Or.inr (ih hmem)

theorem claimNext_some_src (s : List Job) (w : Nat) (j : Job)
    (h : (claimNext s w).1 = some j) :
    repoInState s j.repo .enqueued ∧ j.state = .inProgress := by
  induction s with
  | nil => simp [claimNext] at h
  | cons j0 rest ih =>
    by_cases h0 : j0.state = .enqueued
    · simp only [claimNext, h0, if_pos] at h
      obtain rfl := (Option.some.injEq _ _).mp h
      exact ⟨⟨j0, List.mem_cons_self _ _, rfl, h0⟩, rfl⟩
    · simp only [claimNext, h0, if_neg, not_false_iff] at h
      obtain ⟨⟨jj, hmem, hr, hs⟩, hst⟩ := ih h
      exact ⟨⟨jj, List.mem_cons_of_mem _ hmem, hr, hs⟩, hst⟩

theorem claimNext_some_inProgress (s : List Job) (w : Nat) (j : Job)
    (h : (claimNext s w).1 = some j) :
    repoInState (claimNext s w).2 j.repo .inProgress := by
  induction s with
  | nil => simp [claimNext] at h
  | cons j0 rest ih =>
    by_cases h0 : j0.state = .enqueued
    · simp only [claimNext, h0, if_pos] at h ⊢
      obtain rfl := (Option.some.injEq _ _).mp h
      exact ⟨_, List.mem_cons_self _ _, rfl, rfl⟩
    · simp only [claimNext, h0, if_neg, not_false_iff] at h ⊢
      obtain ⟨jj, hmem, hr, hs⟩ := ih h
      exact ⟨jj, List.mem_cons_of_mem _ hmem, hr, hs⟩

theorem repoInState_unique (s : List Job) (hnd : (s.map Job.repo).Nodup)
    (r : String) (st1 st2 : JobState)
    (h1 : repoInState s r st1) (h2 : repoInState s r st2) : st1 = st2 := by
  obtain ⟨j1, m1, r1, s1⟩ := h1
  obtain ⟨j2, m2, r2, s2⟩ := h2
  have hj : j1 = j2 :=
    List.inj_on_of_nodup_map hnd m1 m2 (by rw [r1, r2])
  rw [← s1, ← s2, hj]

theorem repoInState_claimNext_inProgress (s : List Job) (w : Nat) (r : String)
    (h : repoInState s r .inProgress) :
    repoInState (claimNext s w).2 r .inProgress := by
  obtain ⟨j, hmem, hr, hs⟩ := h
  exact ⟨j, claimNext_mem_of_ne_enqueued s w j hmem (by simp [hs]), hr, hs⟩

theorem claimAll_avoids_inProgress (ws : List Nat) (s : List Job) (r : String)
    (hnd : (s.map Job.repo).Nodup) (hip : repoInState s r .inProgress) :
    r ∉ ((claimAll s ws).1.map Job.repo) := by
  induction ws generalizing s with
  | nil => simp [claimAll]
  | cons w ws ih =>
    have hnd' : (((claimNext s w).2).map Job.repo).Nodup := by
      rw [claimNext_map_repo]; exact hnd
    have hip' := repoInState_claimNext_inProgress s w r hip
    cases hcn : (claimNext s w).1 with
    | none =>
      simpa [claimAll, hcn] using ih _ hnd' hip'
    | some j =>
      simp only [claimAll, hcn, Option.toList_some, List.singleton_append,
        List.map_cons, List.mem_cons, not_or]
      refine ⟨?_, ih _ hnd' hip'⟩
      intro hrepo
      have henq := (claimNext_some_src s w j hcn).1
      rw [← hrepo] at henq
      exact JobState.noConfusion (repoInState_unique s hnd r _ _ henq hip)

/-- C3: under any number of racing workers, whose atomic claim attempts
linearize to a sequence, `claimAll` never hands the same repository's job
to two callers: the returned jobs have pairwise distinct repository
identifiers whenever the store holds one job per repository. -/
theorem ClaimNext_no_double_claim (s : List Job) (ws : List Nat)
    (hnd : (s.map Job.repo).Nodup) :
    ((claimAll s ws).1.map Job.repo).Nodup := by
  induction ws generalizing s with
  | nil => simp [claimAll]
  | cons w ws ih =>
    have hnd' : (((claimNext s w).2).map Job.repo).Nodup := by
      rw [claimNext_map_repo]; exact hnd
    cases hcn : (claimNext s w).1 with
    | none => simpa [claimAll, hcn] using ih _ hnd'
    | some j =>
      simp only [claimAll, hcn, Option.toList_some, List.singleton_append,
        List.map_cons, List.nodup_cons]
      exact ⟨claimAll_avoids_inProgress ws _ j.repo hnd'
          (claimNext_some_inProgress s w j hcn),
        ih _ hnd'⟩

/-- C3 witness: three workers racing over a two-job store receive pairwise
distinct jobs, through `ClaimNext_no_double_claim`. -/
theorem ClaimNext_no_double_claim_witness :
    ((claimAll
        [⟨"did:plc:a", .enqueued, none, 0⟩, ⟨"did:plc:b", .enqueued, none, 0⟩]
        [0, 1, 2]).1.map Job.repo).Nodup :=
  ClaimNext_no_double_claim
    [⟨"did:plc:a", .enqueued, none, 0⟩, ⟨"did:plc:b", .enqueued, none, 0⟩]
    [0, 1, 2] (by decide)

/-- Modelled from the spec: the job store configuration, the bounded retry
maximum of `Fail`. -/
structure JSConfig where
  maxRetries : Nat

/-- Modelled from the spec: `Complete(jobID)` transitions the repository's
in-progress job to complete. -/
def completeJob (s : List Job) (r : String) : List Job :=
  s.map fun j =>
    if j.repo = r ∧ j.state = .inProgress then
      { j with state := .complete, claimant := none }
    else j

/-- Modelled from the spec: `Fail(jobID, error)` increments the retry count
of the repository's in-progress job; past the configured maximum the job
moves to the terminal failed state, otherwise back to enqueued for a
retry. -/
def failJob (cfg : JSConfig) (s : List Job) (r : String) : List Job :=
  s.map fun j =>
    if j.repo = r ∧ j.state = .inProgress then
      if cfg.maxRetries < j.retries + 1 then
        { j with state := .failed, retries := j.retries + 1, claimant := none }
      else
        { j with state := .enqueued, retries := j.retries + 1, claimant := none }
    else j

/-- Modelled from the spec: `Enqueue(repoID)` inserts an enqueued job when
none exists for the repository and is a no-op when one already exists in a
non-complete state; the spec leaves a repository whose only job is complete
unspecified, modelled here as the same no-op. -/
def enqueueJob (s : List Job) (r : String) : List Job :=
  if ∃ j ∈ s, j.repo = r then s
  else s ++ [⟨r, .enqueued, none, 0⟩]

/-- One operation a worker or the ingestion path performs against the job
store. -/
inductive StoreOp
  | claim (w : Nat)
  | complete (r : String)
  | fail (r : String)
  | enqueue (r : String)

/-- One atomic job store operation: the job returned (claims only) and the
store after. -/
def stepOp (cfg : JSConfig) (s : List Job) : StoreOp → Option Job × List Job
  | .claim w => claimNext s w
  | .complete r => (none, completeJob s r)
  | .fail r => (none, failJob cfg s r)
  | .enqueue r => (none, enqueueJob s r)

/-- A sequence of job store operations: all jobs returned by claims, and the
final store. -/
def runOps (cfg : JSConfig) : List Job → List StoreOp → List Job × List Job
  | s, [] => ([], s)
  | s, op :: ops =>
    ((stepOp cfg s op).1.toList ++ (runOps cfg (stepOp cfg s op).2 ops).1,
      (runOps cfg (stepOp cfg s op).2 ops).2)

theorem completeJob_map_repo (s : List Job) (r : String) :
    (completeJob s r).map Job.repo = s.map Job.repo := by
  simp only [completeJob, List.map_map]
  refine List.map_congr_left fun j _ => ?_
  by_cases h : j.repo = r ∧ j.state = .inProgress <;> simp [h]

theorem failJob_map_repo (cfg : JSConfig) (s : List Job) (r : String) :
    (failJob cfg s r).map Job.repo = s.map Job.repo := by
  simp only [failJob, List.map_map]
  refine List.map_congr_left fun j _ => ?_
  by_cases h : j.repo = r ∧ j.state = .inProgress
  · by_cases h2 : cfg.maxRetries < j.retries + 1 <;> simp [h, h2]
  · simp [h]

theorem enqueueJob_nodup (s : List Job) (r : String)
    (hnd : (s.map Job.repo).Nodup) :
    ((enqueueJob s r).map Job.repo).Nodup := by
  unfold enqueueJob
  by_cases h : ∃ j ∈ s, j.repo = r
  · simpa [h] using hnd
  · rw [if_neg h]
    push_neg at h
    simp only [List.map_append, List.map_cons, List.map_nil]
    rw [List.nodup_append]
    refine ⟨hnd, List.nodup_singleton _, fun x hx => ?_⟩
    obtain ⟨j, hj, rfl⟩ := List.mem_map.mp hx
    simp [h j hj]

theorem stepOp_nodup (cfg : JSConfig) (s : List Job) (op : StoreOp)
    (hnd : (s.map Job.repo).Nodup) :
    (((stepOp cfg s op).2).map Job.repo).Nodup := by
  cases op with
  | claim w => rw [stepOp, claimNext_map_repo]; exact hnd
  | complete r => rw [stepOp, completeJob_map_repo]; exact hnd
  | fail r => rw [stepOp, failJob_map_repo]; exact hnd
  | enqueue r => exact enqueueJob_nodup s r hnd

theorem stepOp_preserves_failed (cfg : JSConfig) (s : List Job) (op : StoreOp)
    (r : String) (hf : repoInState s r .failed) :
    repoInState (stepOp cfg s op).2 r .failed := by
  obtain ⟨j, hmem, hr, hs⟩ := hf
  cases op with
  | claim w =>
    exact ⟨j, claimNext_mem_of_ne_enqueued s w j hmem (by simp [hs]), hr, hs⟩
  | complete r' =>
    refine ⟨j, ?_, hr, hs⟩
    have : (fun j : Job =>
        if j.repo = r' ∧ j.state = .inProgress then
          { j with state := .complete, claimant := none }
        else j) j = j := by
      simp [hs]
    exact this ▸ List.mem_map_of_mem _ hmem
  | fail r' =>
    refine ⟨j, ?_, hr, hs⟩
    have : (fun j : Job =>
        if j.repo = r' ∧ j.state = .inProgress then
          if cfg.maxRetries < j.retries + 1 then
            { j with state := .failed, retries := j.retries + 1, claimant := none }
          else
            { j with state := .enqueued, retries := j.retries + 1, claimant := none }
        else j) j = j := by
      simp [hs]
    exact this ▸ List.mem_map_of_mem _ hmem
  | enqueue r' =>
    unfold stepOp enqueueJob
    by_cases h : ∃ j ∈ s, j.repo = r'
    · exact ⟨j, by simpa [h] using hmem, hr, hs⟩
    · exact ⟨j, by simp [h, List.mem_append, hmem], hr, hs⟩

theorem stepOp_claim_avoids_failed (cfg : JSConfig) (s : List Job)
    (op : StoreOp) (r : String) (j : Job)
    (hnd : (s.map Job.repo).Nodup) (hf : repoInState s r .failed)
    (h : (stepOp cfg s op).1 = some j) : j.repo ≠ r := by
  cases op with
  | claim w =>
    intro hrepo
    have henq := (claimNext_some_src s w j h).1
    rw [hrepo] at henq
    exact JobState.noConfusion (repoInState_unique s hnd r _ _ henq hf)
  | complete r' => simp [stepOp] at h
  | fail r' => simp [stepOp] at h
  | enqueue r' => simp [stepOp] at h

theorem runOps_failed_terminal (cfg : JSConfig) (ops : List StoreOp)
    (s : List Job) (r : String)
    (hnd : (s.map Job.repo).Nodup) (hf : repoInState s r .failed) :
    r ∉ ((runOps cfg s ops).1.map Job.repo) ∧
    repoInState (runOps cfg s ops).2 r .failed := by
  induction ops generalizing s with
  | nil => exact ⟨by simp [runOps], hf⟩
  | cons op ops ih =>
    have hnd' := stepOp_nodup cfg s op hnd
    have hf' := stepOp_preserves_failed cfg s op r hf
    obtain ⟨htail, hfin⟩ := ih _ hnd' hf'
    refine ⟨?_, hfin⟩
    cases hcn : (stepOp cfg s op).1 with
    | none => simpa [runOps, hcn] using htail
    | some j =>
      simp only [runOps, hcn, Option.toList_some, List.singleton_append,
        List.map_cons, List.mem_cons, not_or]
      exact ⟨fun hrepo =>
        stepOp_claim_avoids_failed cfg s op r j hnd hf hcn hrepo.symm, htail⟩

/-- C6: a `Fail` that takes a job past the configured retry maximum moves it
to the terminal failed state, and from then on no sequence of claims,
completes, fails or enqueues ever returns that repository's job to a
worker or moves it out of the failed state. -/
theorem failed_never_retried (cfg : JSConfig) (s : List Job) (j : Job)
    (ops : List StoreOp)
    (hnd : (s.map Job.repo).Nodup) (hj : j ∈ s)
    (hip : j.state = .inProgress) (hmax : cfg.maxRetries ≤ j.retries) :
    repoInState (failJob cfg s j.repo) j.repo .failed ∧
    j.repo ∉ ((runOps cfg (failJob cfg s j.repo) ops).1.map Job.repo) ∧
    repoInState (runOps cfg (failJob cfg s j.repo) ops).2 j.repo .failed := by
  have hfailed : repoInState (failJob cfg s j.repo) j.repo .failed := by
    refine ⟨{ j with state := .failed, retries := j.retries + 1, claimant := none },
      ?_, rfl, rfl⟩
    have : (fun x : Job =>
        if x.repo = j.repo ∧ x.state = .inProgress then
          if cfg.maxRetries < x.retries + 1 then
            { x with state := .failed, retries := x.retries + 1, claimant := none }
          else
            { x with state := .enqueued, retries := x.retries + 1, claimant := none }
        else x) j =
        { j with state := .failed, retries := j.retries + 1, claimant := none } := by
      simp [hip, Nat.lt_succ_of_le hmax]
    exact this ▸ List.mem_map_of_mem _ hj
  have hnd' : ((failJob cfg s j.repo).map Job.repo).Nodup := by
    rw [failJob_map_repo]; exact hnd
  obtain ⟨h1, h2⟩ := runOps_failed_terminal cfg ops _ j.repo hnd' hfailed
  exact ⟨hfailed, h1, h2⟩

/-- C6 witness: a concrete in-progress job at the retry maximum, failed once
more, is terminal through a further claim, enqueue and fail sequence, via
`failed_never_retried`. -/
theorem failed_never_retried_witness :
    repoInState (failJob ⟨2⟩ [⟨"did:plc:a", .inProgress, some 0, 2⟩] "did:plc:a")
        "did:plc:a" .failed ∧
    "did:plc:a" ∉
      ((runOps ⟨2⟩ (failJob ⟨2⟩ [⟨"did:plc:a", .inProgress, some 0, 2⟩] "did:plc:a")
          [.claim 1, .enqueue "did:plc:a", .fail "did:plc:a"]).1.map Job.repo) ∧
    repoInState
      ((runOps ⟨2⟩ (failJob ⟨2⟩ [⟨"did:plc:a", .inProgress, some 0, 2⟩] "did:plc:a")
          [.claim 1, .enqueue "did:plc:a", .fail "did:plc:a"]).2)
      "did:plc:a" .failed :=
  failed_never_retried ⟨2⟩ [⟨"did:plc:a", .inProgress, some 0, 2⟩]
    ⟨"did:plc:a", .inProgress, some 0, 2⟩
    [.claim 1, .enqueue "did:plc:a", .fail "did:plc:a"]
    (by decide) (by decide) (by decide) (by decide)

/-! ## The search server (`search/server.go`) -/

/-- Go `strings.HasPrefix`. -/
def goHasPrefix (s hd : String) : Bool := hd.data.isPrefixOf s.data

/-- Go `strings.Replace` with `n = 1` on character lists: the first
occurrence of `old` is replaced by `new`; an absent `old` leaves the text
unchanged. -/
def replaceFirstL (old new : List Char) : List Char → List Char
  | [] => if old.isPrefixOf ([] : List Char) then new else []
  | c :: rest =>
    if old.isPrefixOf (c :: rest) then new ++ (c :: rest).drop old.length
    else c :: replaceFirstL old new rest

/-- Go `strings.Replace(s, old, new, 1)`. -/
def goReplaceFirst (s old new : String) : String :=
  ⟨replaceFirstL old.data new.data s.data⟩

/-- `search.Config`: the server configuration surface, omitting the injected
logger. -/
structure Config where
  bgsHost : String
  profileIndex : String
  postIndex : String
  bgsSyncRateLimit : Int
  indexMaxConcurrency : Int

/-- The backfiller options `NewServer` adjusts. `backfill.DefaultBackfillOptions`
is not among the sampled sources, so the starting value is a parameter. -/
structure BackfillOptions where
  syncRequestsPerSecond : Int
  parallelBackfills : Int
  parallelRecordCreates : Int
  nsidFilter : String
  checkoutPath : String
deriving DecidableEq

/-- The option mutations `NewServer` performs on the default backfill
options, in source order. -/
def newServerOpts (config : Config) (defaults : BackfillOptions)
    (bgshttp : String) : BackfillOptions :=
  let opts := defaults
  let opts :=
    if 0 < config.bgsSyncRateLimit then
      { opts with
          syncRequestsPerSecond := config.bgsSyncRateLimit,
          parallelBackfills := wrap64 (2 * config.bgsSyncRateLimit) }
    else { opts with syncRequestsPerSecond := 8 }
  let opts := { opts with checkoutPath := bgshttp ++ "/xrpc/com.atproto.sync.getRepo" }
  let opts :=
    if 0 < config.indexMaxConcurrency then
      { opts with parallelRecordCreates := config.indexMaxConcurrency }
    else { opts with parallelRecordCreates := 20 }
  { opts with nsidFilter := "app.bsky." }

/-- The parts of `search.Server` that `NewServer` computes and the claims
observe. -/
structure ServerModel where
  bgshost : String
  bgsxrpcHost : String
  profileIndex : String
  postIndex : String
  opts : BackfillOptions

/-- `search.NewServer`: rejects a BGS host that does not start with `ws`,
derives the outbound XRPC host by rewriting the scheme, and prepares the
backfiller options. -/
def NewServer (config : Config) (defaults : BackfillOptions) :
    Except String ServerModel :=
  let bgsws := config.bgsHost
  if !(goHasPrefix bgsws "ws") then
    .error "specified bgs host must include ws scheme"
  else
    let bgshttp := goReplaceFirst bgsws "ws" "http"
    .ok
      { bgshost := config.bgsHost
        bgsxrpcHost := bgshttp
        profileIndex := config.profileIndex
        postIndex := config.postIndex
        opts := newServerOpts config defaults bgshttp }

/-- C4: with a positive configured sync rate limit r, `NewServer` sets the
sync rate to r requests per second and the backfill worker pool size to the
derived 2·r; with no positive rate limit the sync rate is set to 8 and the
pool size keeps the package default. -/
theorem newServer_rate_and_pool (config : Config) (defaults : BackfillOptions)
    (bgshttp : String) :
    (0 < config.bgsSyncRateLimit → config.bgsSyncRateLimit < 2 ^ 62 →
      (newServerOpts config defaults bgshttp).syncRequestsPerSecond =
          config.bgsSyncRateLimit ∧
        (newServerOpts config defaults bgshttp).parallelBackfills =
          2 * config.bgsSyncRateLimit) ∧
    (config.bgsSyncRateLimit ≤ 0 →
      (newServerOpts config defaults bgshttp).syncRequestsPerSecond = 8 ∧
        (newServerOpts config defaults bgshttp).parallelBackfills =
          defaults.parallelBackfills) := by
  constructor
  · intro hpos hrange
    have hw : wrap64 (2 * config.bgsSyncRateLimit) = 2 * config.bgsSyncRateLimit :=
      wrap64_eq_self _ (by omega) (by omega)
    by_cases hc : 0 < config.indexMaxConcurrency <;>
      simp [newServerOpts, hpos, hc, hw]
  · intro hneg
    have hpos : ¬ 0 < config.bgsSyncRateLimit := by omega
    by_cases hc : 0 < config.indexMaxConcurrency <;>
      simp [newServerOpts, hpos, hc]

/-- C4 witness: a concrete configuration with rate limit 5 yields sync rate
5 and pool size 10, through `newServer_rate_and_pool`. -/
theorem newServer_rate_and_pool_witness :
    (newServerOpts ⟨"wss://bgs.example", "profiles", "posts", 5, 0⟩
          ⟨8, 10, 20, "", ""⟩ "http://bgs.example").syncRequestsPerSecond = 5 ∧
    (newServerOpts ⟨"wss://bgs.example", "profiles", "posts", 5, 0⟩
          ⟨8, 10, 20, "", ""⟩ "http://bgs.example").parallelBackfills = 10 :=
  (newServer_rate_and_pool ⟨"wss://bgs.example", "profiles", "posts", 5, 0⟩
      ⟨8, 10, 20, "", ""⟩ "http://bgs.example").1 (by decide) (by decide)

/-- C5 counterexample: the namespace filter is not settable through the
configuration surface: two configurations differing in every field, one of
them atop defaults that carry a different filter, both leave the engine
with the fixed filter `app.bsky.`. -/
theorem nsidFilter_fixed_counterexample :
    (newServerOpts ⟨"wss://h1", "p1", "q1", 3, 4⟩
        ⟨1, 2, 3, "com.example.", "x"⟩ "http://h1").nsidFilter = "app.bsky." ∧
    (newServerOpts ⟨"ws://h2", "p2", "q2", 0, 0⟩
        ⟨9, 9, 9, "org.other.", "y"⟩ "http://h2").nsidFilter = "app.bsky." := by
  exact ⟨rfl, rfl⟩

/-- C5 (amended): the collection-prefix filter is fixed by the engine, not
configurable: for every configuration and every default option set,
`NewServer` sets the namespace filter to the constant `app.bsky.`. -/
theorem nsidFilter_fixed (config : Config) (defaults : BackfillOptions)
    (bgshttp : String) :
    (newServerOpts config defaults bgshttp).nsidFilter = "app.bsky." := by
  unfold newServerOpts
  by_cases h1 : 0 < config.bgsSyncRateLimit <;>
    by_cases h2 : 0 < config.indexMaxConcurrency <;> simp [h1, h2]

/-- C8: a BGS host not starting with `ws` makes `NewServer` return an error
and no server; a host `ws…` yields a server whose outbound XRPC host is the
BGS host with its first occurrence of `ws` replaced by `http`. -/
theorem newServer_host_scheme (config : Config) (defaults : BackfillOptions) :
    (goHasPrefix config.bgsHost "ws" = false →
      NewServer config defaults = .error "specified bgs host must include ws scheme") ∧
    (∀ rest : List Char, config.bgsHost.data = 'w' :: 's' :: rest →
      ∃ s, NewServer config defaults = .ok s ∧
        s.bgsxrpcHost = goReplaceFirst config.bgsHost "ws" "http" ∧
        s.bgsxrpcHost.data = "http".data ++ rest) := by
  constructor
  · intro h
    simp [NewServer, h]
  · intro rest hdata
    have hws : goHasPrefix config.bgsHost "ws" = true := by
      simp [goHasPrefix, hdata, List.isPrefixOf]
    refine ⟨{ bgshost := config.bgsHost
              bgsxrpcHost := goReplaceFirst config.bgsHost "ws" "http"
              profileIndex := config.profileIndex
              postIndex := config.postIndex
              opts := newServerOpts config defaults
                (goReplaceFirst config.bgsHost "ws" "http") },
      by simp [NewServer, hws], rfl, ?_⟩
    simp only [goReplaceFirst, hdata]
    rw [replaceFirstL]
    have hpre : ("ws".data).isPrefixOf ('w' :: 's' :: rest) = true := by
      simp [List.isPrefixOf]
    simp [hpre]

/-- C8 witness: a concrete `wss://` host is accepted and rewritten to
`https://`, through `newServer_host_scheme`. -/
theorem newServer_host_scheme_witness :
    ∃ s, NewServer ⟨"wss://bgs.example", "profiles", "posts", 5, 0⟩
        ⟨8, 10, 20, "", ""⟩ = .ok s ∧
      s.bgsxrpcHost =
        goReplaceFirst "wss://bgs.example" "ws" "http" ∧
      s.bgsxrpcHost.data = "http".data ++ "s://bgs.example".data :=
  (newServer_host_scheme ⟨"wss://bgs.example", "profiles", "posts", 5, 0⟩
      ⟨8, 10, 20, "", ""⟩).2 "s://bgs.example".data rfl

/-! ## Index provisioning (`Server.EnsureIndices`) -/

/-- An OpenSearch API response as the provisioner inspects it. -/
structure ESResponse where
  statusCode : Nat
deriving DecidableEq

/-- `opensearchapi.Response.IsError`: a status code above 299. -/
def ESResponse.isError (r : ESResponse) : Bool := decide (299 < r.statusCode)

/-- The OpenSearch index API as `EnsureIndices` drives it: the response, or
transport error, of the existence check and of the create call for each
index name. -/
structure ESIndexOps where
  existsResp : String → Except Unit ESResponse
  createResp : String → Except Unit ESResponse

/-- The error returns of `EnsureIndices`, one per return site. -/
inductive EnsureError
  | existsCallFailed
  | existsCheckFailed
  | emptySchema
  | createCallFailed
  | createFailed
deriving DecidableEq

/-- An index to provision: its name and its embedded schema JSON. -/
structure IndexSpec where
  name : String
  schemaJSON : String

/-- One iteration of the `EnsureIndices` loop: whether a create call was
issued for the index, or the error that aborted the run. -/
def ensureOne (ops : ESIndexOps) (idx : IndexSpec) : Except EnsureError Bool :=
  match ops.existsResp idx.name with
  | .error _ => .error .existsCallFailed
  | .ok resp =>
    if resp.isError && decide (resp.statusCode ≠ 404) then .error .existsCheckFailed
    else if resp.statusCode = 404 then
      if idx.schemaJSON.utf8ByteSize < 2 then .error .emptySchema
      else
        match ops.createResp idx.name with
        | .error _ => .error .createCallFailed
        | .ok cresp => if cresp.isError then .error .createFailed else .ok true
    else .ok false

/-- The `EnsureIndices` loop over a list of indices: per index, whether a
create call was issued; the first error aborts the run as in the source. -/
def ensureLoop (ops : ESIndexOps) :
    List IndexSpec → Except EnsureError (List (String × Bool))
  | [] => .ok []
  | idx :: rest =>
    match ensureOne ops idx with
    | .error e => .error e
    | .ok b =>
      match ensureLoop ops rest with
      | .error e => .error e
      | .ok tr => .ok ((idx.name, b) :: tr)

/-- `Server.EnsureIndices`: the post index then the profile index, each with
its embedded schema. -/
def EnsureIndices (ops : ESIndexOps) (postIndex profileIndex : String)
    (postSchema profileSchema : String) :
    Except EnsureError (List (String × Bool)) :=
  ensureLoop ops [⟨postIndex, postSchema⟩, ⟨profileIndex, profileSchema⟩]

theorem ensureOne_ok_iff (ops : ESIndexOps) (idx : IndexSpec) (b : Bool)
    (hs : 2 ≤ idx.schemaJSON.utf8ByteSize)
    (h : ensureOne ops idx = .ok b) :
    b = true ↔ ops.existsResp idx.name = .ok ⟨404⟩ := by
  cases hex : ops.existsResp idx.name with
  | error e =>
    simp only [ensureOne, hex] at h
    exact Except.noConfusion h
  | ok resp =>
    simp only [ensureOne, hex] at h
    by_cases h1 : (resp.isError && decide (resp.statusCode ≠ 404)) = true
    · rw [if_pos h1] at h
      exact Except.noConfusion h
    · rw [if_neg h1] at h
      by_cases h2 : resp.statusCode = 404
      · have hresp : resp = ⟨404⟩ := by cases resp; simpa using h2
        rw [if_pos h2, if_neg (by omega)] at h
        cases hc : ops.createResp idx.name with
        | error e =>
          simp only [hc] at h
          exact Except.noConfusion h
        | ok cresp =>
          simp only [hc] at h
          by_cases h3 : cresp.isError = true
          · rw [if_pos h3] at h
            exact Except.noConfusion h
          · rw [if_neg h3] at h
            obtain rfl := (Except.ok.inj h).symm
            simp [hresp]
      · rw [if_neg h2] at h
        obtain rfl := (Except.ok.inj h).symm
        simp only [Bool.false_eq_true, false_iff]
        intro hok
        exact h2 (by rw [Except.ok.inj hok])

/-- C1: a successful `EnsureIndices` run walks exactly the post index and
the profile index (in that order) and issues a create call for an index if
and only if the existence check reported it absent with HTTP 404; an index
whose check did not report 404 gets no create call, so a repeated run
against provisioned indices changes nothing. -/
theorem EnsureIndices_create_iff_absent (ops : ESIndexOps)
    (postIndex profileIndex postSchema profileSchema : String)
    (tr : List (String × Bool))
    (hps : 2 ≤ postSchema.utf8ByteSize) (hfs : 2 ≤ profileSchema.utf8ByteSize)
    (h : EnsureIndices ops postIndex profileIndex postSchema profileSchema = .ok tr) :
    ∃ bpost bprof,
      tr = [(postIndex, bpost), (profileIndex, bprof)] ∧
      (bpost = true ↔ ops.existsResp postIndex = .ok ⟨404⟩) ∧
      (bprof = true ↔ ops.existsResp profileIndex = .ok ⟨404⟩) := by
  cases h1 : ensureOne ops ⟨postIndex, postSchema⟩ with
  | error e =>
    simp only [EnsureIndices, ensureLoop, h1] at h
    exact Except.noConfusion h
  | ok b1 =>
    cases h2 : ensureOne ops ⟨profileIndex, profileSchema⟩ with
    | error e =>
      simp only [EnsureIndices, ensureLoop, h1, h2] at h
      exact Except.noConfusion h
    | ok b2 =>
      simp only [EnsureIndices, ensureLoop, h1, h2, Except.ok.injEq] at h
      obtain rfl := h.symm
      exact ⟨b1, b2, rfl,
        ensureOne_ok_iff ops ⟨postIndex, postSchema⟩ b1 hps h1,
        ensureOne_ok_iff ops ⟨profileIndex, profileSchema⟩ b2 hfs h2⟩

/-- A concrete OpenSearch responder: the post index is absent (404), the
profile index present (200), creates succeed. -/
def sampleOps : ESIndexOps :=
  ⟨fun n => if n = "posts" then .ok ⟨404⟩ else .ok ⟨200⟩, fun _ => .ok ⟨200⟩⟩

/-- C1 witness: with the post index absent and the profile index present,
the run creates exactly the post index, through
`EnsureIndices_create_iff_absent`. -/
theorem EnsureIndices_create_iff_absent_witness :
    ∃ bpost bprof,
      ([("posts", true), ("profiles", false)] : List (String × Bool)) =
        [("posts", bpost), ("profiles", bprof)] ∧
      (bpost = true ↔ sampleOps.existsResp "posts" = .ok ⟨404⟩) ∧
      (bprof = true ↔ sampleOps.existsResp "profiles" = .ok ⟨404⟩) :=
  EnsureIndices_create_iff_absent sampleOps "posts" "profiles" "schema" "schema"
    [("posts", true), ("profiles", false)] (by decide) (by decide) rfl

/-- The error conditions claim C7 enumerates for one index: the existence
check call fails, the existence response is an error status other than 404,
or the index is absent and the schema is empty, the create call fails or
the create response is an error status. -/
def indexFails (ops : ESIndexOps) (idx : IndexSpec) : Prop :=
  ops.existsResp idx.name = .error () ∨
  (∃ r, ops.existsResp idx.name = .ok r ∧ r.isError = true ∧ r.statusCode ≠ 404) ∨
  (∃ r, ops.existsResp idx.name = .ok r ∧ r.statusCode = 404 ∧
    (idx.schemaJSON = "" ∨ ops.createResp idx.name = .error () ∨
      ∃ c, ops.createResp idx.name = .ok c ∧ c.isError = true))

theorem utf8_two_le_of_ne_empty (s : String)
    (hs : s = "" ∨ 2 ≤ s.utf8ByteSize) (h : ¬ s.utf8ByteSize < 2) : s ≠ "" := by
  intro he
  subst he
  exact h (by simp [String.utf8ByteSize])

theorem ensureOne_error_iff (ops : ESIndexOps) (idx : IndexSpec)
    (hs : idx.schemaJSON = "" ∨ 2 ≤ idx.schemaJSON.utf8ByteSize) :
    (∃ e, ensureOne ops idx = .error e) ↔ indexFails ops idx := by
  unfold ensureOne indexFails
  cases hex : ops.existsResp idx.name with
  | error e => cases e; simp
  | ok resp =>
    simp only [Except.ok.injEq, false_or, reduceCtorEq, exists_eq_left']
    by_cases h1 : (resp.isError && decide (resp.statusCode ≠ 404)) = true
    · rw [if_pos h1]
      rw [Bool.and_eq_true, decide_eq_true_iff] at h1
      simp [h1]
    · rw [if_neg h1]
      rw [Bool.and_eq_true, decide_eq_true_iff] at h1
      by_cases h2 : resp.statusCode = 404
      · rw [if_pos h2]
        by_cases h3 : idx.schemaJSON.utf8ByteSize < 2
        · have he : idx.schemaJSON = "" := by
            rcases hs with he | hle
            · exact he
            · omega
          rw [if_pos h3]
          simp [h1, h2, he]
        · have hne := utf8_two_le_of_ne_empty idx.schemaJSON hs h3
          rw [if_neg h3]
          cases hc : ops.createResp idx.name with
          | error e => cases e; simp [hc, h1, h2, hne]
          | ok cresp =>
            by_cases h4 : cresp.isError = true
            · simp [hc, h4, h1, h2, hne]
            · simp [hc, h4, h1, h2, hne]
      · rw [if_neg h2]
        constructor
        · rintro ⟨e, he⟩
          cases he
        · rintro (⟨hi, hne⟩ | ⟨h404, _⟩)
          · exact absurd ⟨hi, hne⟩ h1
          · exact absurd h404 h2

/-- C7: `EnsureIndices` returns an error exactly when, for the post index or
the profile index, the existence check call fails, the existence response
is an error status other than 404, or the index is absent (404) and the
embedded schema string is empty, the create call fails or the create
response is an error status; in every other case it returns success. -/
theorem EnsureIndices_error_iff (ops : ESIndexOps)
    (postIndex profileIndex postSchema profileSchema : String)
    (hp : postSchema = "" ∨ 2 ≤ postSchema.utf8ByteSize)
    (hf : profileSchema = "" ∨ 2 ≤ profileSchema.utf8ByteSize) :
    (∃ e, EnsureIndices ops postIndex profileIndex postSchema profileSchema =
        .error e) ↔
      (indexFails ops ⟨postIndex, postSchema⟩ ∨
        indexFails ops ⟨profileIndex, profileSchema⟩) := by
  rw [← ensureOne_error_iff ops ⟨postIndex, postSchema⟩ hp,
    ← ensureOne_error_iff ops ⟨profileIndex, profileSchema⟩ hf]
  cases h1 : ensureOne ops ⟨postIndex, postSchema⟩ with
  | error e => simp [EnsureIndices, ensureLoop, h1]
  | ok b1 =>
    cases h2 : ensureOne ops ⟨profileIndex, profileSchema⟩ with
    | error e => simp [EnsureIndices, ensureLoop, h1, h2]
    | ok b2 => simp [EnsureIndices, ensureLoop, h1, h2]

/-- A concrete OpenSearch responder whose existence check fails at the
transport level. -/
def failingOps : ESIndexOps :=
  ⟨fun _ => .error (), fun _ => .ok ⟨200⟩⟩

/-- C7 witness: a failing existence check makes `EnsureIndices` return an
error, through `EnsureIndices_error_iff`. -/
theorem EnsureIndices_error_iff_witness :
    ∃ e, EnsureIndices failingOps "posts" "profiles" "schema" "schema" = .error e :=
  (EnsureIndices_error_iff failingOps "posts" "profiles" "schema" "schema"
      (Or.inr (by decide)) (Or.inr (by decide))).mpr (Or.inl (Or.inl rfl))

end Indigo
